import Mathlib

/-!
# Verification of the bashman dependency-graph resolution engine

Shallow embedding of the dependency resolution core of the `bashman`
repository (`src/parse/cargo.rs` and `src/parse/pkg.rs`), together with
theorems settling the frozen claims about it.

Conventions of the embedding:
* `u8` bit flags are modelled as `Nat`; the bitwise complement `!m` of a
  mask inside `u8` arithmetic is written `255 ^^^ m` (all masks in play
  have their bits inside the low byte).
* Package ids (opaque strings in the payload) are modelled as `Nat`.
* `semver::Version` is abstracted to a linearly ordered `Nat` (the claims
  only use equality and ordering of versions).
* The `HashMap` of resolved nodes is modelled as an association list
  whose keys are distinct (a hash map cannot hold duplicate keys); the
  `Vec`-based work stack pops from the head of the list, with children
  pushed reversed so that the head corresponds to the `Vec`'s tail.
* The `Vec`-backed work-stack loops of `Raw::finalize` are modelled by a
  fuel-indexed step function `traverseF`; `traversal` runs it with the
  explicit fuel bound `pot` which is proved sufficient below.
-/

namespace Bashman

/-! ## Flag constants (`impl Dependency`, src/parse/pkg.rs) -/

/-- Flag constant: direct dependency. -/
def FLAG_DIRECT : Nat := 1

/-- Flag constant: feature-specific. -/
def FLAG_OPTIONAL : Nat := 2

/-- Flag constant: not target-specific. -/
def FLAG_TARGET_ANY : Nat := 4

/-- Flag constant: target-specific. -/
def FLAG_TARGET_CFG : Nat := 8

/-- Flag constant: normal context. -/
def FLAG_CTX_NORMAL : Nat := 16

/-- Flag constant: build context. -/
def FLAG_CTX_BUILD : Nat := 32

/-- Mask of the context flags. -/
def MASK_CTX : Nat := FLAG_CTX_NORMAL ||| FLAG_CTX_BUILD

/-- Mask of the platform flags. -/
def MASK_TARGET : Nat := FLAG_TARGET_ANY ||| FLAG_TARGET_CFG

/-! ## Dependency (src/parse/pkg.rs)

The source record also carries license, authors and repository URL;
those fields are not consulted by equality, ordering, or any of the
claims, so the embedding keeps name, version and the context bit-set. -/

/-- Source `Dependency`: final output record (name, version, context flags). -/
structure Dependency where
  name : String
  version : Nat
  context : Nat
deriving DecidableEq, Repr

/-- Source `Dependency::direct`. -/
def Dependency.direct (d : Dependency) : Bool :=
  FLAG_DIRECT == d.context &&& FLAG_DIRECT

/-- Source `Dependency::optional`. -/
def Dependency.optional (d : Dependency) : Bool :=
  FLAG_OPTIONAL == d.context &&& FLAG_OPTIONAL

/-- Source `Dependency::build`. -/
def Dependency.build (d : Dependency) : Bool :=
  FLAG_CTX_BUILD == d.context &&& MASK_CTX

/-- Source `Dependency::target_specific`. -/
def Dependency.target_specific (d : Dependency) : Bool :=
  FLAG_TARGET_CFG == d.context &&& MASK_TARGET

/-- Source `Dependency::conditional`. -/
def Dependency.conditional (d : Dependency) : Bool :=
  d.optional || d.target_specific

/-- Byte-lexicographic comparison of the character lists backing two
strings, mirroring Rust's `str::cmp` on the ASCII names in play. -/
def lexCmp : List Char → List Char → Ordering
  | [], [] => .eq
  | [], _ :: _ => .lt
  | _ :: _, [] => .gt
  | a :: as, b :: bs =>
    if a < b then .lt else if b < a then .gt else lexCmp as bs

/-- Plain `Nat` comparison written out (stands in for `semver::Version::cmp`). -/
def natCmp (a b : Nat) : Ordering :=
  if a < b then .lt else if b < a then .gt else .eq

/-- Source `impl Ord for Dependency`: name, then version. -/
def Dependency.cmp (a b : Dependency) : Ordering :=
  match lexCmp a.name.data b.name.data with
  | .eq => natCmp a.version b.version
  | o => o

/-- Source `BTreeSet<Dependency>::insert` on a sorted list: when an element
comparing equal is already present, the set is left unchanged (the
existing element is kept, the new one discarded). -/
def btreeInsert (d : Dependency) : List Dependency → List Dependency
  | [] => [d]
  | x :: xs =>
    match Dependency.cmp d x with
    | .lt => d :: x :: xs
    | .eq => x :: xs
    | .gt => x :: btreeInsert d xs

/-! ## Resolved node graph (src/parse/cargo.rs) -/

/-- Source `RawNodeDep`: one retained edge, target package id plus the OR of
the per-kind edge flags. -/
structure RawNodeDep where
  id : Nat
  dep_kinds : Nat
deriving DecidableEq, Repr

/-- The `resolve.nodes` table: parent id keyed list of retained edges. -/
abbrev Nodes := List (Nat × List RawNodeDep)

/-- Source `HashMap::get` on the node table (first entry with the key). -/
def lookupDeps (G : Nodes) (k : Nat) : List RawNodeDep :=
  match G.find? (fun kv => kv.1 == k) with
  | some kv => kv.2
  | none => []

/-- One `while let Some(next) = queue.pop()` loop of `Raw::finalize`,
with explicit fuel.  State is `(used, queue)`; a popped node is pushed
to `used` once, and only then are its children (those edges accepted by
`follow`) pushed onto the stack. -/
def traverseF (G : Nodes) (follow : RawNodeDep → Bool) :
    Nat → List Nat → List Nat → List Nat × List Nat
  | 0, used, queue => (used, queue)
  | _ + 1, used, [] => (used, [])
  | fuel + 1, used, next :: rest =>
    if next ∈ used then traverseF G follow fuel used rest
    else traverseF G follow fuel (next :: used)
      ((((lookupDeps G next).filter follow).map RawNodeDep.id).reverse ++ rest)

/-- Total length of the outgoing-edge lists of the keys not yet used:
the number of stack pushes the loop can still perform. -/
def edgeBudget (G : Nodes) (used : List Nat) : Nat :=
  ((((G.map Prod.fst).dedup).filter (fun k => !(decide (k ∈ used)))).map
    (fun k => (lookupDeps G k).length)).sum

/-- Fuel bound for `traverseF`: pending pops plus pending pushes. -/
def pot (G : Nodes) (used : List Nat) (queue : List Nat) : Nat :=
  queue.length + edgeBudget G used

/-- The work-stack traversal with its sufficient fuel. -/
def traversal (G : Nodes) (follow : RawNodeDep → Bool) (seeds : List Nat) :
    List Nat :=
  (traverseF G follow (pot G [] seeds) [] seeds).1

/-! ## `Raw::finalize` (src/parse/cargo.rs) -/

/-- Edge filter of the main reachability pass: every retained edge is
followed (`queue.extend(next.iter().map(|nd| nd.id))`). -/
def anyFollow (_ : RawNodeDep) : Bool := true

/-- Edge filter of the build-propagation pass:
`FLAG_CTX_NORMAL == nd.dep_kinds & FLAG_CTX_NORMAL`. -/
def normalFollow (nd : RawNodeDep) : Bool :=
  FLAG_CTX_NORMAL == nd.dep_kinds &&& FLAG_CTX_NORMAL

/-- Edge filter of the target-propagation pass:
`FLAG_TARGET_ANY == nd.dep_kinds & FLAG_TARGET_ANY`. -/
def targetFollow (nd : RawNodeDep) : Bool :=
  FLAG_TARGET_ANY == nd.dep_kinds &&& FLAG_TARGET_ANY

/-- Source `nd.dep_kinds = (nd.dep_kinds & ! MASK_CTX) | FLAG_CTX_BUILD`. -/
def forceBuild (nd : RawNodeDep) : RawNodeDep :=
  { nd with dep_kinds := (nd.dep_kinds &&& (255 ^^^ MASK_CTX)) ||| FLAG_CTX_BUILD }

/-- Source `nd.dep_kinds = (nd.dep_kinds & ! MASK_TARGET) | FLAG_TARGET_CFG`. -/
def forceCfg (nd : RawNodeDep) : RawNodeDep :=
  { nd with dep_kinds := (nd.dep_kinds &&& (255 ^^^ MASK_TARGET)) ||| FLAG_TARGET_CFG }

/-- Source `nd.dep_kinds |= FLAG_DIRECT`. -/
def markDirect (nd : RawNodeDep) : RawNodeDep :=
  { nd with dep_kinds := nd.dep_kinds ||| FLAG_DIRECT }

/-- In-place rewrite of every edge list, the rewrite depending on the
parent key (the shape of each `for (k, v) in &mut resolve.nodes` loop). -/
def mapVals (f : Nat → RawNodeDep → RawNodeDep) (G : Nodes) : Nodes :=
  G.map (fun kv => (kv.1, kv.2.map (f kv.1)))

/-- The "used" id set of `Raw::finalize`: the `cargo tree` corroborated
set when it is usable, otherwise the fallback traversal from the root
(`if used.is_empty() || ! used.contains(resolve.root)`). -/
def mainUsed (G : Nodes) (root : Nat) (treeUsed : List Nat) : List Nat :=
  if treeUsed.isEmpty || !(treeUsed.contains root) then
    traversal G anyFollow [root]
  else treeUsed

/-- Source `resolve.nodes.retain(|k, _| used.contains(k))` followed by
`v.retain(|nd| used.contains(nd.id))` on every retained value. -/
def retained (G : Nodes) (root : Nat) (treeUsed : List Nat) : Nodes :=
  let used := mainUsed G root treeUsed
  (G.filter (fun kv => used.contains kv.1)).map
    (fun kv => (kv.1, kv.2.filter (fun nd => used.contains nd.id)))

/-- Nodes reached by the `CTX_NORMAL`-restricted re-traversal. -/
def normalUsed (G : Nodes) (root : Nat) (treeUsed : List Nat) : List Nat :=
  traversal (retained G root treeUsed) normalFollow [root]

/-- Build-context propagation: the edges of every parent missed by the
restricted traversal are forced to build-only context. -/
def afterBuild (G : Nodes) (root : Nat) (treeUsed : List Nat) : Nodes :=
  mapVals
    (fun k nd => if (normalUsed G root treeUsed).contains k then nd else forceBuild nd)
    (retained G root treeUsed)

/-- Nodes reached by the `TARGET_ANY`-restricted re-traversal (run on
the table after build-context propagation). -/
def targetUsed (G : Nodes) (root : Nat) (treeUsed : List Nat) : List Nat :=
  traversal (afterBuild G root treeUsed) targetFollow [root]

/-- Target propagation: parents missed by the `TARGET_ANY` traversal
have their edges forced to target-specific. -/
def afterTarget (G : Nodes) (root : Nat) (treeUsed : List Nat) : Nodes :=
  mapVals
    (fun k nd => if (targetUsed G root treeUsed).contains k then nd else forceCfg nd)
    (afterBuild G root treeUsed)

/-- Full `Raw::finalize` effect on the node table: retain, build-context
propagation, target propagation, then `FLAG_DIRECT` on every edge of a
workspace member. -/
def finalizeNodes (G : Nodes) (root : Nat) (treeUsed : List Nat)
    (workspace_members : List Nat) : Nodes :=
  mapVals
    (fun k nd => if workspace_members.contains k then markDirect nd else nd)
    (afterTarget G root treeUsed)

/-! ## `RawResolve::flags` and the `fetch` pipeline -/

/-- Per-id OR of the flags of every edge reaching `id`
(`RawResolve::flags` entry; absent entries read as `0`, matching
`flags.get(p.id).copied().unwrap_or(0)`). -/
def flagsOf (G : Nodes) (id : Nat) : Nat :=
  ((G.map Prod.snd).flatten).foldl
    (fun acc nd => if nd.id == id then acc ||| nd.dep_kinds else acc) 0

/-- Source `RawResolve::flags` with the targeted-resolution strip:
`*flag &= ! FLAG_TARGET_CFG` when a target triple was supplied. -/
def resolveFlags (G : Nodes) (targeted : Bool) (id : Nat) : Nat :=
  if targeted then flagsOf G id &&& (255 ^^^ FLAG_TARGET_CFG) else flagsOf G id

/-- Source `resolve.nodes.contains_key(id)`. -/
def containsKey (G : Nodes) (id : Nat) : Bool :=
  (G.map Prod.fst).contains id

/-- Source `RawPackage`: the fields of the package record the resolver
consults (id, normalized name, version, and whether the root package
declares non-default features — the result of `deserialize_features`).
License, authors and repository URL are deferred raw values never read
by the resolution logic and are omitted. -/
structure RawPackage where
  id : Nat
  name : String
  version : Nat
  hasFeatures : Bool
deriving DecidableEq, Repr

/-- One parsed `cargo metadata` payload (`struct Raw`). -/
structure Raw where
  packages : List RawPackage
  workspace_members : List Nat
  nodes : Nodes
  root : Nat
deriving DecidableEq, Repr

/-- Source `RawPackage::try_into_dependency` (the deferred license/author
deserialization is out of scope and always succeeds here). -/
def try_into_dependency (p : RawPackage) (context : Nat) : Dependency :=
  ⟨p.name, p.version, context⟩

/-- Source `BashManError` (the variants the resolver can produce). -/
inductive BashManError where
  | ParseCargoMetadata (msg : String)
deriving DecidableEq, Repr

/-- The node table `fetch` works with for a payload: `Raw::finalize`
applied to the payload's resolve table (`treeUsed` is the id set the
`cargo tree` collaborator corroborated, empty when it failed). -/
def fetchG (pl : Raw) (treeUsed : List Nat) : Nodes :=
  finalizeNodes pl.nodes pl.root treeUsed pl.workspace_members

/-- The first `for p in packages` loop of `fetch`: split out the main
crate (`p.id == resolve.root`, last match kept via `main.replace`),
convert every other used package and insert it into the set. -/
def fetchPass (packages : List RawPackage) (G : Nodes) (root : Nat)
    (targeted : Bool) : Option RawPackage × List Dependency :=
  packages.foldl
    (fun acc p =>
      if p.id == root then (some p, acc.2)
      else if containsKey G p.id then
        (acc.1,
          btreeInsert (try_into_dependency p (resolveFlags G targeted p.id)) acc.2)
      else acc)
    (none, [])

/-- Default-features pass of `fetch` (main package and dependency set). -/
def fetchDefault (pl : Raw) (treeUsed : List Nat) (targeted : Bool) :
    Option RawPackage × List Dependency :=
  fetchPass pl.packages (fetchG pl treeUsed) pl.root targeted

/-- Source `fetch` (src/parse/cargo.rs).  `raw1`/`raw2` are the parse results
of the default-features and all-features `cargo metadata` invocations
(`raw2` also absorbs a failed second execution), `tree1`/`tree2` the
corresponding `cargo tree` id sets, `targeted` whether a target triple
was supplied.  The main-package post-processing
(`RawMainPackage::try_from_parts`) is out of scope; the result is the
dependency set. -/
def fetch (raw1 : Except String Raw) (tree1 : List Nat)
    (raw2 : Except String Raw) (tree2 : List Nat) (targeted : Bool) :
    Except BashManError (List Dependency) :=
  match raw1 with
  | .error e => .error (.ParseCargoMetadata e)
  | .ok pl1 =>
    match (fetchDefault pl1 tree1 targeted).1 with
    | none => .error (.ParseCargoMetadata "unable to determine root package")
    | some mainP =>
      if mainP.hasFeatures then
        match raw2 with
        | .error _ => .ok (fetchDefault pl1 tree1 targeted).2
        | .ok pl2 =>
          .ok (pl2.packages.foldl
            (fun deps p =>
              if (p.id != mainP.id) && containsKey (fetchG pl2 tree2) p.id then
                btreeInsert
                  (try_into_dependency p
                    (resolveFlags (fetchG pl2 tree2) targeted p.id ||| FLAG_OPTIONAL))
                  deps
              else deps)
            (fetchDefault pl1 tree1 targeted).2)
      else .ok (fetchDefault pl1 tree1 targeted).2

/-! ## Edge classification (`RawNodeDepKind` and friends) -/

/-- Source `enum NodeDepKind` with its `repr(u8)` discriminants. -/
inductive NodeDepKind where
  | Dev
  | Normal
  | Build
deriving DecidableEq, Repr

/-- The `u8` discriminant of a `NodeDepKind`. -/
def NodeDepKind.val : NodeDepKind → Nat
  | .Dev => 0
  | .Normal => FLAG_CTX_NORMAL
  | .Build => FLAG_CTX_BUILD

/-- Source `impl Deserialize for NodeDepKind`: the raw JSON token of the
`kind` field (`none` when the field is absent, in which case the
struct-level `#[serde(default)]` yields `Normal`). -/
def NodeDepKind.ofRaw : Option String → NodeDepKind
  | none => .Normal
  | some r => if r = "\"build\"" then .Build else if r = "\"dev\"" then .Dev else .Normal

/-- Source `enum NodeDepTarget` with its `repr(u8)` discriminants. -/
inductive NodeDepTarget where
  | None
  | Any
  | Cfg
deriving DecidableEq, Repr

/-- The `u8` discriminant of a `NodeDepTarget`. -/
def NodeDepTarget.val : NodeDepTarget → Nat
  | .None => 0
  | .Any => FLAG_TARGET_ANY
  | .Cfg => FLAG_TARGET_CFG

/-- Source `impl Deserialize for NodeDepTarget`: `cfg(any())` never applies,
`cfg(all())`, `null`, an unparsable value, or an absent field always
apply, anything else is an actual rule. -/
def NodeDepTarget.ofRaw : Option String → NodeDepTarget
  | none => .Any
  | some r =>
    if r = "\"cfg(any())\"" then .None
    else if r = "\"cfg(all())\"" ∨ r = "null" then .Any
    else .Cfg

/-- Source `struct RawNodeDepKind`. -/
structure RawNodeDepKind where
  kind : NodeDepKind
  target : NodeDepTarget
deriving DecidableEq, Repr

/-- Source `RawNodeDepKind::as_flag`: zero for a dev kind or an unsatisfiable
target, otherwise the OR of the two discriminants. -/
def RawNodeDepKind.as_flag (self : RawNodeDepKind) : Nat :=
  if self.kind = .Dev ∨ self.target = .None then 0
  else self.kind.val ||| self.target.val

/-- Source `deserialize_dep_kinds`: fold the per-kind flags of an edge into a
single bit-set. -/
def deserialize_dep_kinds (v : List RawNodeDepKind) : Nat :=
  v.foldl (fun acc dk => acc ||| dk.as_flag) 0

/-- Source `deserialize_deps`: drop the edges whose flag has no context bits
or no target bits. -/
def deserialize_deps (v : List RawNodeDep) : List RawNodeDep :=
  v.filter (fun nd =>
    (0 != nd.dep_kinds &&& MASK_CTX) && (0 != nd.dep_kinds &&& MASK_TARGET))

/-- Modelled from the serde derive on `RawResolve` (src/parse/cargo.rs):
the `root` field is `&str` with no `#[serde(default)]`, so a resolve
table whose root id is absent or null fails deserialization with a
missing-field error instead of producing a value.  `root?` is the
payload's root entry. -/
def parseRawResolve (nodes : Nodes) (root? : Option Nat) :
    Except String (Nodes × Nat) :=
  match root? with
  | none => .error "missing field root"
  | some r => .ok (nodes, r)

/-! ## `PackageName` (src/parse/pkg.rs) -/

/-- Source `struct PackageName`: the (lowercased) name plus whether it
contains at least one hyphen. -/
structure PackageName where
  name : String
  hyphens : Bool
deriving DecidableEq, Repr

/-- Source `NormalizeHyphens`: replace every hyphen by an underscore. -/
def normalizeHyphens (l : List Char) : List Char :=
  l.map (fun c => if c = '-' then '_' else c)

/-- Source `impl PartialEq for PackageName`.  Note the one-sided branch: when
exactly one of the two names contains hyphens the comparison is `false`
without normalizing. -/
def PackageName.beq (a b : PackageName) : Bool :=
  if a.hyphens || b.hyphens then
    if a.hyphens && b.hyphens then
      (a.name.length == b.name.length) &&
        (normalizeHyphens a.name.data == normalizeHyphens b.name.data)
    else false
  else a.name == b.name

/-- Source `impl Ord for PackageName`: hyphen-normalized byte comparison as
soon as either side contains a hyphen. -/
def PackageName.cmp (a b : PackageName) : Ordering :=
  if a.hyphens || b.hyphens then
    lexCmp (normalizeHyphens a.name.data) (normalizeHyphens b.name.data)
  else lexCmp a.name.data b.name.data

/-- ASCII lowercase of one character (`u8::make_ascii_lowercase`). -/
def asciiLower (c : Char) : Char :=
  if 'A' ≤ c ∧ c ≤ 'Z' then Char.ofNat (c.toNat + 32) else c

/-- ASCII whitespace strip (`trim_mut`), kept to the whitespace
characters a manifest name can carry. -/
def trimChars (l : List Char) : List Char :=
  ((l.dropWhile Char.isWhitespace).reverse.dropWhile Char.isWhitespace).reverse

/-- Is this byte allowed past the first position of a package name
(`b'a'..=b'z' | b'0'..=b'9' | b'_'`, with `-` flagging the hyphen
bit)? -/
def pkgNameByteOk (c : Char) : Bool :=
  (('a' ≤ c) && (c ≤ 'z')) || (('0' ≤ c) && (c ≤ '9')) || (c == '_') || (c == '-')

/-- Source `impl TryFrom<String> for PackageName`: trim, lowercase, require a
leading ASCII letter and only lowercase alphanumerics, `_` or `-`;
record whether a hyphen occurred. -/
def PackageName.ofString (s : String) : Option PackageName :=
  let name := (trimChars s.data).map asciiLower
  match name with
  | [] => none
  | c :: _ =>
    if (('a' ≤ c) && (c ≤ 'z')) && name.all pkgNameByteOk then
      some ⟨⟨name⟩, name.any (· == '-')⟩
    else none

/-! ## Auxiliary predicates, instances and concrete witness payloads -/

/-- Loop invariant: every follow-child of a used node is used or queued. -/
def TravInv (G : Nodes) (fl : RawNodeDep → Bool) (used queue : List Nat) :
    Prop :=
  ∀ p ∈ used, ∀ nd ∈ (lookupDeps G p).filter fl, nd.id ∈ used ∨ nd.id ∈ queue

/-- An edge with build-only context bits, both components of the value
inside the six-bit space, targeting `m`. -/
def BuildOkEdge (m : Nat) (e : RawNodeDep) : Prop :=
  e.dep_kinds &&& MASK_CTX = FLAG_CTX_BUILD ∧ e.dep_kinds < 64 ∧ e.id = m

/-- C1 witness graph: the root 0 reaches 1 over a build-only edge
(`36 = CTX_BUILD | TARGET_ANY`), and 1 carries a raw `CTX_NORMAL` edge
(`20 = CTX_NORMAL | TARGET_ANY`) to 2. -/
def C1WG : Nodes := [(0, [⟨1, 36⟩]), (1, [⟨2, 20⟩]), (2, [])]

/-- C10 witness graph: a two-node cycle. -/
def C10WG : Nodes := [(0, [⟨1, 20⟩]), (1, [⟨0, 20⟩])]

/-- C5 counterexample graph: root 0 is isolated; workspace member 1
has an edge to 2. -/
def C5WG : Nodes := [(0, []), (1, [⟨2, 20⟩]), (2, [])]

/-- C8 witness payload: a root package with features and no
dependencies. -/
def C8pl : Raw := ⟨[⟨0, "r", 1, true⟩], [], [(0, [])], 0⟩

/-- Decidable equality for `Except` results, used to evaluate the
model on concrete payloads. -/
instance {ε α : Type} [DecidableEq ε] [DecidableEq α] : DecidableEq (Except ε α)
  | .error a, .error b =>
    if h : a = b then .isTrue (by rw [h])
    else .isFalse (by intro hc; cases hc; exact h rfl)
  | .error _, .ok _ => .isFalse (by intro hc; cases hc)
  | .ok _, .error _ => .isFalse (by intro hc; cases hc)
  | .ok a, .ok b =>
    if h : a = b then .isTrue (by rw [h])
    else .isFalse (by intro hc; cases hc; exact h rfl)

/-- C2/C7 default-features payload: root 0 (with optional features)
depends on package 1 ("a") over a `CTX_NORMAL | TARGET_ANY` edge. -/
def C2pl1 : Raw :=
  ⟨[⟨0, "r", 1, true⟩, ⟨1, "a", 1, false⟩], [], [(0, [⟨1, 20⟩]), (1, [])], 0⟩

/-- C2 all-features payload: same packages, but the edge to "a" is now
`CTX_BUILD | TARGET_ANY` — same name and version, different merged
flags. -/
def C2pl2 : Raw :=
  ⟨[⟨0, "r", 1, true⟩, ⟨1, "a", 1, false⟩], [], [(0, [⟨1, 36⟩]), (1, [])], 0⟩

/-- C2 amended witness all-features payload: adds package 3 ("b"),
reachable only in the all-features graph via "a". -/
def C2Wpl2 : Raw :=
  ⟨[⟨0, "r", 1, true⟩, ⟨1, "a", 1, false⟩, ⟨3, "b", 1, false⟩], [],
    [(0, [⟨1, 20⟩]), (1, [⟨3, 20⟩]), (3, [])], 0⟩

/-! ## Basic facts about the work-stack traversal -/

theorem find?_key_of_mem {G : Nodes} {k : Nat} {v : List RawNodeDep}
    (hnd : (G.map Prod.fst).Nodup) (hmem : (k, v) ∈ G) :
    G.find? (fun kv => kv.1 == k) = some (k, v) := by
  induction G with
  | nil => cases hmem
  | cons a G ih =>
    rw [List.map_cons, List.nodup_cons] at hnd
    rcases List.mem_cons.mp hmem with h | h
    · rw [← h]
      exact List.find?_cons_of_pos _ (by simp)
    · have hne : a.1 ≠ k := by
        intro hk
        exact hnd.1 (hk ▸ List.mem_map_of_mem Prod.fst h)
      rw [List.find?_cons_of_neg _ (by simpa using hne)]
      exact ih hnd.2 h

theorem lookupDeps_eq_of_mem {G : Nodes} {k : Nat} {v : List RawNodeDep}
    (hnd : (G.map Prod.fst).Nodup) (hmem : (k, v) ∈ G) :
    lookupDeps G k = v := by
  unfold lookupDeps
  rw [find?_key_of_mem hnd hmem]

theorem lookupDeps_eq_nil_of_not_key {G : Nodes} {k : Nat}
    (h : k ∉ G.map Prod.fst) : lookupDeps G k = [] := by
  unfold lookupDeps
  rw [List.find?_eq_none.mpr]
  intro kv hkv
  simp only [beq_iff_eq]
  intro hkk
  exact h (hkk ▸ List.mem_map_of_mem Prod.fst hkv)

theorem sum_le_of_sublist {l1 l2 : List Nat} (h : l1.Sublist l2) :
    l1.sum ≤ l2.sum := by
  induction h with
  | slnil => exact Nat.le_refl 0
  | cons a _ ih => rw [List.sum_cons]; omega
  | cons₂ a _ ih => rw [List.sum_cons, List.sum_cons]; omega

theorem edgeBudget_not_key {G : Nodes} {used : List Nat} {next : Nat}
    (h : next ∉ G.map Prod.fst) :
    edgeBudget G (next :: used) = edgeBudget G used := by
  unfold edgeBudget
  have hf : List.filter (fun k => !(decide (k ∈ next :: used))) (G.map Prod.fst).dedup
      = List.filter (fun k => !(decide (k ∈ used))) (G.map Prod.fst).dedup := by
    apply List.filter_congr
    intro k hk
    have hkG : k ∈ G.map Prod.fst := List.mem_dedup.mp hk
    have hne : k ≠ next := fun hkn => h (hkn ▸ hkG)
    simp [List.mem_cons, hne]
  rw [hf]

theorem edgeBudget_insert_aux (F : Nat → Nat) (used : List Nat) (next : Nat)
    (hu : next ∉ used) :
    ∀ l : List Nat, l.Nodup → next ∈ l →
      ((l.filter (fun k => !(decide (k ∈ next :: used)))).map F).sum + F next ≤
        ((l.filter (fun k => !(decide (k ∈ used)))).map F).sum := by
  intro l
  induction l with
  | nil => intro _ h; cases h
  | cons a l ih =>
    intro hnd hmem
    rw [List.nodup_cons] at hnd
    by_cases ha : a = next
    · subst ha
      rw [List.filter_cons_of_neg (by simp), List.filter_cons_of_pos (by simpa using hu)]
      rw [List.map_cons, List.sum_cons]
      have hsub : (l.filter (fun k => !(decide (k ∈ a :: used)))).Sublist
          (l.filter (fun k => !(decide (k ∈ used)))) := by
        apply List.monotone_filter_right
        intro k hkk
        simp only [Bool.not_eq_true', decide_eq_false_iff_not, List.mem_cons] at hkk ⊢
        exact fun hm => hkk (Or.inr hm)
      have hs := sum_le_of_sublist (List.Sublist.map F hsub)
      omega
    · have hmem' : next ∈ l := (List.mem_cons.mp hmem).resolve_left (fun h => ha h.symm)
      by_cases hau : a ∈ used
      · rw [List.filter_cons_of_neg (by simp [List.mem_cons, hau]),
          List.filter_cons_of_neg (by simp [hau])]
        exact ih hnd.2 hmem'
      · rw [List.filter_cons_of_pos (by simp [List.mem_cons, ha, hau]),
          List.filter_cons_of_pos (by simp [hau])]
        rw [List.map_cons, List.sum_cons, List.map_cons, List.sum_cons]
        have hs := ih hnd.2 hmem'
        omega

theorem edgeBudget_insert {G : Nodes} {used : List Nat} {next : Nat}
    (hk : next ∈ G.map Prod.fst) (hu : next ∉ used) :
    edgeBudget G (next :: used) + (lookupDeps G next).length ≤
      edgeBudget G used :=
  edgeBudget_insert_aux (fun k => (lookupDeps G k).length) used next hu
    (G.map Prod.fst).dedup (List.nodup_dedup _) (List.mem_dedup.mpr hk)

theorem traverseF_nil (G : Nodes) (fl : RawNodeDep → Bool) (fuel : Nat)
    (used : List Nat) : traverseF G fl fuel used [] = (used, []) := by
  cases fuel <;> rfl

/-- One-step potential bookkeeping: stepping from a nonempty queue
strictly decreases `pot`. -/
theorem pot_step_new {G : Nodes} {used : List Nat} {next : Nat}
    (rest : List Nat) (fl : RawNodeDep → Bool) (hu : next ∉ used) :
    pot G (next :: used)
        ((((lookupDeps G next).filter fl).map RawNodeDep.id).reverse ++ rest) + 1 ≤
      pot G used (next :: rest) := by
  unfold pot
  rw [List.length_append, List.length_reverse, List.length_map]
  by_cases hk : next ∈ G.map Prod.fst
  · have h1 : ((lookupDeps G next).filter fl).length ≤ (lookupDeps G next).length :=
      List.length_filter_le _ _
    have h2 := edgeBudget_insert hk hu
    simp only [List.length_cons]
    omega
  · rw [lookupDeps_eq_nil_of_not_key hk]
    rw [edgeBudget_not_key hk]
    simp only [List.filter_nil, List.length_nil, List.length_cons]
    omega

theorem pot_step_old {G : Nodes} {used rest : List Nat} {next : Nat} :
    pot G used rest + 1 ≤ pot G used (next :: rest) := by
  unfold pot
  simp only [List.length_cons]
  omega

/-- Fuel irrelevance: any fuel at least `pot` computes the same result. -/
theorem traverseF_fuel_congr (G : Nodes) (fl : RawNodeDep → Bool) :
    ∀ n f1 f2 used queue, pot G used queue ≤ n →
      pot G used queue ≤ f1 → pot G used queue ≤ f2 →
      traverseF G fl f1 used queue = traverseF G fl f2 used queue := by
  intro n
  induction n with
  | zero =>
    intro f1 f2 used queue hn _ _
    have hq : queue = [] := by
      unfold pot at hn
      cases queue with
      | nil => rfl
      | cons a l => simp at hn
    subst hq
    rw [traverseF_nil, traverseF_nil]
  | succ n ih =>
    intro f1 f2 used queue hn h1 h2
    cases queue with
    | nil => rw [traverseF_nil, traverseF_nil]
    | cons next rest =>
      have hpos : 1 ≤ pot G used (next :: rest) := by
        unfold pot
        simp only [List.length_cons]
        omega
      cases f1 with
      | zero => omega
      | succ g1 =>
        cases f2 with
        | zero => omega
        | succ g2 =>
          by_cases hmem : next ∈ used
          · simp only [traverseF, if_pos hmem]
            have hle := @pot_step_old G used rest next
            exact ih g1 g2 used rest (by omega) (by omega) (by omega)
          · simp only [traverseF, if_neg hmem]
            have hle := pot_step_new (G := G) rest fl hmem
            exact ih g1 g2 _ _ (by omega) (by omega) (by omega)

/-- Termination: fuel `pot` empties the queue. -/
theorem traverseF_halts (G : Nodes) (fl : RawNodeDep → Bool) :
    ∀ n fuel used queue, pot G used queue ≤ n → pot G used queue ≤ fuel →
      (traverseF G fl fuel used queue).2 = [] := by
  intro n
  induction n with
  | zero =>
    intro fuel used queue hn _
    have hq : queue = [] := by
      unfold pot at hn
      cases queue with
      | nil => rfl
      | cons a l => simp at hn
    subst hq
    rw [traverseF_nil]
  | succ n ih =>
    intro fuel used queue hn hf
    cases queue with
    | nil => rw [traverseF_nil]
    | cons next rest =>
      cases fuel with
      | zero =>
        unfold pot at hf
        simp only [List.length_cons] at hf
        omega
      | succ g =>
        by_cases hmem : next ∈ used
        · simp only [traverseF, if_pos hmem]
          have hle := @pot_step_old G used rest next
          exact ih g used rest (by omega) (by omega)
        · simp only [traverseF, if_neg hmem]
          have hle := pot_step_new (G := G) rest fl hmem
          exact ih g _ _ (by omega) (by omega)

/-- The used set only grows. -/
theorem traverseF_used_mono (G : Nodes) (fl : RawNodeDep → Bool) :
    ∀ fuel used queue, used ⊆ (traverseF G fl fuel used queue).1 := by
  intro fuel
  induction fuel with
  | zero => intro used queue; exact fun _ h => h
  | succ g ih =>
    intro used queue
    cases queue with
    | nil => exact fun _ h => h
    | cons next rest =>
      by_cases hmem : next ∈ used
      · simp only [traverseF, if_pos hmem]
        exact ih used rest
      · simp only [traverseF, if_neg hmem]
        exact fun x hx => ih (next :: used) _ (List.mem_cons_of_mem _ hx)

/-- Whatever is in the used set or still queued ends up used once the
queue has emptied. -/
theorem traverseF_covers (G : Nodes) (fl : RawNodeDep → Bool) :
    ∀ fuel used queue x, (x ∈ used ∨ x ∈ queue) →
      (traverseF G fl fuel used queue).2 = [] →
      x ∈ (traverseF G fl fuel used queue).1 := by
  intro fuel
  induction fuel with
  | zero =>
    intro used queue x hx hq
    simp only [traverseF] at hq ⊢
    rcases hx with h | h
    · exact h
    · rw [hq] at h; cases h
  | succ g ih =>
    intro used queue x hx hq
    cases queue with
    | nil =>
      simp only [traverseF] at hq ⊢
      rcases hx with h | h
      · exact h
      · cases h
    | cons next rest =>
      by_cases hmem : next ∈ used
      · simp only [traverseF, if_pos hmem] at hq ⊢
        apply ih _ _ _ _ hq
        rcases hx with h | h
        · exact Or.inl h
        · rcases List.mem_cons.mp h with h | h
          · exact Or.inl (h ▸ hmem)
          · exact Or.inr h
      · simp only [traverseF, if_neg hmem] at hq ⊢
        apply ih _ _ _ _ hq
        rcases hx with h | h
        · exact Or.inl (List.mem_cons_of_mem _ h)
        · rcases List.mem_cons.mp h with h | h
          · exact Or.inl (h ▸ List.mem_cons_self _ _)
          · exact Or.inr (List.mem_append_right _ h)


/-- Once the queue empties, the used set is closed under follow-edges. -/
theorem traverseF_closed (G : Nodes) (fl : RawNodeDep → Bool) :
    ∀ fuel used queue, TravInv G fl used queue →
      (traverseF G fl fuel used queue).2 = [] →
      ∀ p ∈ (traverseF G fl fuel used queue).1,
        ∀ nd ∈ (lookupDeps G p).filter fl,
          nd.id ∈ (traverseF G fl fuel used queue).1 := by
  intro fuel
  induction fuel with
  | zero =>
    intro used queue hinv hq p hp nd hnd
    simp only [traverseF] at hq hp ⊢
    rcases hinv p hp nd hnd with h | h
    · exact h
    · rw [hq] at h; cases h
  | succ g ih =>
    intro used queue hinv hq p hp nd hnd
    cases queue with
    | nil =>
      simp only [traverseF] at hq hp ⊢
      rcases hinv p hp nd hnd with h | h
      · exact h
      · cases h
    | cons next rest =>
      by_cases hmem : next ∈ used
      · simp only [traverseF, if_pos hmem] at hq hp ⊢
        refine ih used rest ?_ hq p hp nd hnd
        intro q hquse nd' hnd'
        rcases hinv q hquse nd' hnd' with h | h
        · exact Or.inl h
        · rcases List.mem_cons.mp h with h | h
          · exact Or.inl (h ▸ hmem)
          · exact Or.inr h
      · simp only [traverseF, if_neg hmem] at hq hp ⊢
        refine ih (next :: used) _ ?_ hq p hp nd hnd
        intro q hquse nd' hnd'
        rcases List.mem_cons.mp hquse with h | h
        · subst h
          refine Or.inr (List.mem_append_left _ ?_)
          rw [List.mem_reverse]
          exact List.mem_map_of_mem RawNodeDep.id hnd'
        · rcases hinv q h nd' hnd' with h' | h'
          · exact Or.inl (List.mem_cons_of_mem _ h')
          · rcases List.mem_cons.mp h' with h' | h'
            · exact Or.inl (h' ▸ List.mem_cons_self _ _)
            · exact Or.inr (List.mem_append_right _ h')

/-- Seeds are always contained in the traversal result. -/
theorem traversal_seeds {G : Nodes} {fl : RawNodeDep → Bool}
    {seeds : List Nat} {x : Nat} (hx : x ∈ seeds) :
    x ∈ traversal G fl seeds :=
  traverseF_covers G fl _ [] seeds x (Or.inr hx)
    (traverseF_halts G fl _ _ [] seeds (Nat.le_refl _) (Nat.le_refl _))

/-- The traversal result is closed under followed edges. -/
theorem traversal_closed {G : Nodes} {fl : RawNodeDep → Bool}
    {seeds : List Nat} {p : Nat} {nd : RawNodeDep}
    (hp : p ∈ traversal G fl seeds) (hnd : nd ∈ lookupDeps G p)
    (hfl : fl nd = true) : nd.id ∈ traversal G fl seeds :=
  traverseF_closed G fl _ [] seeds (fun q hq => absurd hq (List.not_mem_nil q))
    (traverseF_halts G fl _ _ [] seeds (Nat.le_refl _) (Nat.le_refl _))
    p hp nd (List.mem_filter.mpr ⟨hnd, hfl⟩)

/-! ## Bit-level facts about the six-bit flag space

Every flag value the loader can produce lives below `2^6` (it is an OR
of the six declared bits), so facts about masks are settled by checking
the 64 possible values. -/

theorem lor_lt_64 : ∀ a, a < 64 → ∀ b, b < 64 → a ||| b < 64 := by decide

theorem ctx_build_of_not_normal :
    ∀ dk, dk < 64 → dk &&& MASK_CTX ≠ 0 →
      ((FLAG_CTX_NORMAL == dk &&& FLAG_CTX_NORMAL) = false) →
      dk &&& MASK_CTX = FLAG_CTX_BUILD := by decide

theorem forceBuild_bits :
    ∀ dk, dk < 64 →
      ((dk &&& (255 ^^^ MASK_CTX)) ||| FLAG_CTX_BUILD) &&& MASK_CTX = FLAG_CTX_BUILD ∧
      ((dk &&& (255 ^^^ MASK_CTX)) ||| FLAG_CTX_BUILD) < 64 := by decide

theorem forceCfg_bits :
    ∀ dk, dk < 64 →
      ((dk &&& (255 ^^^ MASK_TARGET)) ||| FLAG_TARGET_CFG) &&& MASK_CTX = dk &&& MASK_CTX ∧
      ((dk &&& (255 ^^^ MASK_TARGET)) ||| FLAG_TARGET_CFG) < 64 := by decide

theorem markDirect_bits :
    ∀ dk, dk < 64 →
      (dk ||| FLAG_DIRECT) &&& MASK_CTX = dk &&& MASK_CTX ∧
      (dk ||| FLAG_DIRECT) < 64 := by decide

theorem lor_ctx_build :
    ∀ a, a < 64 → ∀ b, b < 64 →
      (a &&& MASK_CTX = 0 ∨ a &&& MASK_CTX = FLAG_CTX_BUILD) →
      b &&& MASK_CTX = FLAG_CTX_BUILD →
      (a ||| b) &&& MASK_CTX = FLAG_CTX_BUILD := by decide

theorem strip_preserves_ctx :
    ∀ f, f < 64 → f &&& MASK_CTX = FLAG_CTX_BUILD →
      (f &&& (255 ^^^ FLAG_TARGET_CFG)) &&& MASK_CTX = FLAG_CTX_BUILD := by decide

theorem strip_kills_target_cfg :
    ∀ f, f < 64 →
      ((FLAG_TARGET_CFG == (f &&& (255 ^^^ FLAG_TARGET_CFG)) &&& MASK_TARGET) = false) ∧
      ((FLAG_TARGET_CFG ==
        ((f &&& (255 ^^^ FLAG_TARGET_CFG)) ||| FLAG_OPTIONAL) &&& MASK_TARGET) = false) := by
  decide

theorem optional_bit_set :
    ∀ f, f < 64 → (FLAG_OPTIONAL == (f ||| FLAG_OPTIONAL) &&& FLAG_OPTIONAL) = true := by
  decide

/-! ## Edge bookkeeping through the `finalize` stages -/

theorem mapVals_mapVals (f g : Nat → RawNodeDep → RawNodeDep) (X : Nodes) :
    mapVals f (mapVals g X) = mapVals (fun k nd => f k (g k nd)) X := by
  simp [mapVals, List.map_map, Function.comp_def]

/-- The edge multiset of a `mapVals` image. -/
theorem mem_edges_mapVals {f : Nat → RawNodeDep → RawNodeDep} {X : Nodes}
    {nd' : RawNodeDep} :
    nd' ∈ ((mapVals f X).map Prod.snd).flatten ↔
      ∃ kv ∈ X, ∃ nd ∈ kv.2, nd' = f kv.1 nd := by
  unfold mapVals
  constructor
  · intro h
    rcases List.mem_flatten.mp h with ⟨l, hl, hnd⟩
    rcases List.mem_map.mp hl with ⟨kv', hkv', rfl⟩
    rcases List.mem_map.mp hkv' with ⟨kv, hkv, rfl⟩
    rcases List.mem_map.mp hnd with ⟨nd, hnd2, rfl⟩
    exact ⟨kv, hkv, nd, hnd2, rfl⟩
  · rintro ⟨kv, hkv, nd, hnd, rfl⟩
    apply List.mem_flatten.mpr
    refine ⟨kv.2.map (f kv.1), ?_, List.mem_map_of_mem _ hnd⟩
    exact List.mem_map.mpr ⟨(kv.1, kv.2.map (f kv.1)), List.mem_map.mpr ⟨kv, hkv, rfl⟩, rfl⟩

/-- Every retained entry comes from an entry of the raw table with the
same key and a sub-list of its edges. -/
theorem mem_retained {G : Nodes} {root : Nat} {treeUsed : List Nat}
    {kv' : Nat × List RawNodeDep} (h : kv' ∈ retained G root treeUsed) :
    ∃ kv ∈ G, kv'.1 = kv.1 ∧ ∀ nd ∈ kv'.2, nd ∈ kv.2 := by
  unfold retained at h
  rcases List.mem_map.mp h with ⟨kv, hkv, rfl⟩
  refine ⟨kv, List.mem_of_mem_filter hkv, rfl, ?_⟩
  intro nd hnd
  exact List.mem_of_mem_filter hnd

theorem retained_keys_nodup {G : Nodes} {root : Nat} {treeUsed : List Nat}
    (h : (G.map Prod.fst).Nodup) :
    ((retained G root treeUsed).map Prod.fst).Nodup := by
  unfold retained
  rw [List.map_map]
  have hsub : ((G.filter fun kv =>
      (mainUsed G root treeUsed).contains kv.1).map Prod.fst).Sublist
      (G.map Prod.fst) := (List.filter_sublist G).map Prod.fst
  exact hsub.nodup h

theorem mapVals_keys (f : Nat → RawNodeDep → RawNodeDep) (X : Nodes) :
    (mapVals f X).map Prod.fst = X.map Prod.fst := by
  simp [mapVals, List.map_map, Function.comp_def]

/-! ## `flagsOf` accumulation -/

theorem contains_mem {l : List Nat} {a : Nat} : l.contains a = true ↔ a ∈ l := by
  simp

theorem flags_fold_lt {n : Nat} :
    ∀ (L : List RawNodeDep) (acc : Nat), acc < 64 →
      (∀ nd ∈ L, nd.id = n → nd.dep_kinds < 64) →
      L.foldl (fun acc nd => if nd.id == n then acc ||| nd.dep_kinds else acc) acc < 64 := by
  intro L
  induction L with
  | nil => intro acc ha _; exact ha
  | cons nd L ih =>
    intro acc ha hL
    simp only [List.foldl_cons]
    by_cases hid : nd.id == n
    · rw [if_pos hid]
      exact ih _ (lor_lt_64 _ ha _ (hL nd (List.mem_cons_self _ _) (by simpa using hid)))
        (fun x hx => hL x (List.mem_cons_of_mem _ hx))
    · rw [if_neg hid]
      exact ih _ ha (fun x hx => hL x (List.mem_cons_of_mem _ hx))

theorem flags_fold_build {n : Nat} :
    ∀ (L : List RawNodeDep) (acc : Nat), acc < 64 →
      (∀ nd ∈ L, nd.id = n →
        nd.dep_kinds &&& MASK_CTX = FLAG_CTX_BUILD ∧ nd.dep_kinds < 64) →
      (acc &&& MASK_CTX = FLAG_CTX_BUILD ∨
        (acc &&& MASK_CTX = 0 ∧ ∃ nd ∈ L, nd.id = n)) →
      (L.foldl (fun acc nd => if nd.id == n then acc ||| nd.dep_kinds else acc) acc)
        &&& MASK_CTX = FLAG_CTX_BUILD := by
  intro L
  induction L with
  | nil =>
    intro acc _ _ hacc
    rcases hacc with h | ⟨_, nd, hnd, _⟩
    · exact h
    · cases hnd
  | cons nd L ih =>
    intro acc ha hL hacc
    simp only [List.foldl_cons]
    by_cases hid : nd.id = n
    · rw [if_pos (by simpa using hid)]
      have hnd := hL nd (List.mem_cons_self _ _) hid
      have hlt : acc ||| nd.dep_kinds < 64 := lor_lt_64 _ ha _ hnd.2
      have hctx : (acc ||| nd.dep_kinds) &&& MASK_CTX = FLAG_CTX_BUILD := by
        apply lor_ctx_build _ ha _ hnd.2 _ hnd.1
        rcases hacc with h | ⟨h, _⟩
        · exact Or.inr h
        · exact Or.inl h
      exact ih _ hlt (fun x hx => hL x (List.mem_cons_of_mem _ hx)) (Or.inl hctx)
    · rw [if_neg (by simpa using hid)]
      refine ih _ ha (fun x hx => hL x (List.mem_cons_of_mem _ hx)) ?_
      rcases hacc with h | ⟨h, nd', hnd', hid'⟩
      · exact Or.inl h
      · rcases List.mem_cons.mp hnd' with h' | h'
        · exact absurd (h' ▸ hid') hid
        · exact Or.inr ⟨h, nd', h', hid'⟩

theorem flagsOf_lt {G : Nodes} {n : Nat}
    (h : ∀ nd ∈ (G.map Prod.snd).flatten, nd.id = n → nd.dep_kinds < 64) :
    flagsOf G n < 64 :=
  flags_fold_lt _ 0 (by omega) h

theorem flagsOf_build {G : Nodes} {n : Nat}
    (hall : ∀ nd ∈ (G.map Prod.snd).flatten, nd.id = n →
      nd.dep_kinds &&& MASK_CTX = FLAG_CTX_BUILD ∧ nd.dep_kinds < 64)
    (hex : ∃ nd ∈ (G.map Prod.snd).flatten, nd.id = n) :
    flagsOf G n &&& MASK_CTX = FLAG_CTX_BUILD :=
  flags_fold_build _ 0 (by omega) hall (Or.inr ⟨by decide, hex⟩)

theorem mem_mapVals {f : Nat → RawNodeDep → RawNodeDep} {X : Nodes}
    {kv' : Nat × List RawNodeDep} :
    kv' ∈ mapVals f X ↔ ∃ kv ∈ X, kv' = (kv.1, kv.2.map (f kv.1)) := by
  unfold mapVals
  constructor
  · intro h
    rcases List.mem_map.mp h with ⟨kv, hkv, rfl⟩
    exact ⟨kv, hkv, rfl⟩
  · rintro ⟨kv, hkv, rfl⟩
    exact List.mem_map_of_mem _ hkv


theorem buildok_stage1 {nU : List Nat} {k m : Nat} {nd : RawNodeDep}
    (hlt : nd.dep_kinds < 64) (hid : nd.id = m)
    (hc : nU.contains k = true → nd.dep_kinds &&& MASK_CTX = FLAG_CTX_BUILD) :
    BuildOkEdge m (if nU.contains k then nd else forceBuild nd) := by
  by_cases h : nU.contains k
  · rw [if_pos h]
    exact ⟨hc h, hlt, hid⟩
  · rw [if_neg h]
    have hb := forceBuild_bits _ hlt
    exact ⟨hb.1, hb.2, hid⟩

theorem buildok_stage2 {tU : List Nat} {k m : Nat} {e : RawNodeDep}
    (h : BuildOkEdge m e) :
    BuildOkEdge m (if tU.contains k then e else forceCfg e) := by
  by_cases hc : tU.contains k
  · rw [if_pos hc]
    exact h
  · rw [if_neg hc]
    have hb := forceCfg_bits _ h.2.1
    exact ⟨hb.1.trans h.1, hb.2, h.2.2⟩

theorem buildok_stage3 {ws : List Nat} {k m : Nat} {e : RawNodeDep}
    (h : BuildOkEdge m e) :
    BuildOkEdge m (if ws.contains k then markDirect e else e) := by
  by_cases hc : ws.contains k
  · rw [if_pos hc]
    have hb := markDirect_bits _ h.2.1
    exact ⟨hb.1.trans h.1, hb.2, h.2.2⟩
  · rw [if_neg hc]
    exact h

/-- The edges of the fully finalized table are exactly the retained
edges pushed through the three per-parent rewrites. -/
theorem edges_finalize {G : Nodes} {root : Nat} {treeUsed ws : List Nat}
    {nd3 : RawNodeDep} :
    nd3 ∈ (((finalizeNodes G root treeUsed ws).map Prod.snd).flatten) ↔
      ∃ kv ∈ retained G root treeUsed, ∃ nd ∈ kv.2,
        nd3 =
          (if ws.contains kv.1 then
            markDirect (if (targetUsed G root treeUsed).contains kv.1 then
                (if (normalUsed G root treeUsed).contains kv.1 then nd else forceBuild nd)
              else forceCfg
                (if (normalUsed G root treeUsed).contains kv.1 then nd else forceBuild nd))
          else (if (targetUsed G root treeUsed).contains kv.1 then
                (if (normalUsed G root treeUsed).contains kv.1 then nd else forceBuild nd)
              else forceCfg
                (if (normalUsed G root treeUsed).contains kv.1 then nd else forceBuild nd))) := by
  unfold finalizeNodes afterTarget afterBuild
  rw [mapVals_mapVals, mapVals_mapVals]
  exact mem_edges_mapVals

/-- The three per-parent rewrites never change an edge's target id. -/
theorem stage_id {nU tU ws : List Nat} {k : Nat} {nd : RawNodeDep} :
    (if ws.contains k then
        markDirect (if tU.contains k then (if nU.contains k then nd else forceBuild nd)
          else forceCfg (if nU.contains k then nd else forceBuild nd))
      else (if tU.contains k then (if nU.contains k then nd else forceBuild nd)
          else forceCfg (if nU.contains k then nd else forceBuild nd))).id = nd.id := by
  split_ifs <;> rfl

/-- C1: after the main reachability pass, any node the
`CTX_NORMAL`-restricted re-traversal misses has every incoming edge
rewritten to build-only context, so its final merged flags report
`build() = true` — even when one of its own raw incoming edges carried
`CTX_NORMAL`. -/
theorem build_context_propagation
    (G : Nodes) (root : Nat) (treeUsed ws : List Nat) (targeted : Bool)
    (nm : String) (ver : Nat) (n : Nat)
    (hkeys : (G.map Prod.fst).Nodup)
    (hctx : ∀ kv ∈ G, ∀ nd ∈ kv.2, nd.dep_kinds &&& MASK_CTX ≠ 0 ∧ nd.dep_kinds < 64)
    (hn : n ∉ normalUsed G root treeUsed)
    (hin : ∃ kv ∈ retained G root treeUsed, ∃ nd ∈ kv.2, nd.id = n) :
    Dependency.build
      ⟨nm, ver, resolveFlags (finalizeNodes G root treeUsed ws) targeted n⟩ = true := by
  have hctxR : ∀ kv ∈ retained G root treeUsed, ∀ nd ∈ kv.2,
      nd.dep_kinds &&& MASK_CTX ≠ 0 ∧ nd.dep_kinds < 64 := by
    intro kv hkv nd hnd
    rcases mem_retained hkv with ⟨kv0, hkv0, _, hsub⟩
    exact hctx kv0 hkv0 nd (hsub nd hnd)
  have hndR : ((retained G root treeUsed).map Prod.fst).Nodup :=
    retained_keys_nodup hkeys
  have key : ∀ nd3 ∈ (((finalizeNodes G root treeUsed ws).map Prod.snd).flatten),
      nd3.id = n → BuildOkEdge n nd3 := by
    intro nd3 h3 hid3
    rcases edges_finalize.mp h3 with ⟨kv, hkv, nd0, hnd0, rfl⟩
    obtain ⟨hctx0, hlt0⟩ := hctxR kv hkv nd0 hnd0
    have hid0 : nd0.id = n := stage_id ▸ hid3
    have hcnorm : (normalUsed G root treeUsed).contains kv.1 = true →
        nd0.dep_kinds &&& MASK_CTX = FLAG_CTX_BUILD := by
      intro hcont
      have hkU : kv.1 ∈ normalUsed G root treeUsed := contains_mem.mp hcont
      by_cases hf : normalFollow nd0 = true
      · exfalso
        apply hn
        have hlook : lookupDeps (retained G root treeUsed) kv.1 = kv.2 :=
          lookupDeps_eq_of_mem hndR hkv
        have hkU' : kv.1 ∈ traversal (retained G root treeUsed) normalFollow [root] := hkU
        have hclose := traversal_closed hkU' (hlook ▸ hnd0) hf
        exact hid0 ▸ hclose
      · have hf' : (FLAG_CTX_NORMAL == nd0.dep_kinds &&& FLAG_CTX_NORMAL) = false := by
          simpa [normalFollow] using hf
        exact ctx_build_of_not_normal _ hlt0 hctx0 hf'
    exact buildok_stage3 (buildok_stage2 (buildok_stage1 hlt0 hid0 hcnorm))
  have hall : ∀ nd ∈ (((finalizeNodes G root treeUsed ws).map Prod.snd).flatten),
      nd.id = n → nd.dep_kinds &&& MASK_CTX = FLAG_CTX_BUILD ∧ nd.dep_kinds < 64 :=
    fun nd h hid => ⟨(key nd h hid).1, (key nd h hid).2.1⟩
  have hex : ∃ nd ∈ (((finalizeNodes G root treeUsed ws).map Prod.snd).flatten),
      nd.id = n := by
    rcases hin with ⟨kv, hkv, nd, hnd, hid⟩
    exact ⟨_, edges_finalize.mpr ⟨kv, hkv, nd, hnd, rfl⟩, stage_id.trans hid⟩
  have h32 : flagsOf (finalizeNodes G root treeUsed ws) n &&& MASK_CTX = FLAG_CTX_BUILD :=
    flagsOf_build hall hex
  have hlt : flagsOf (finalizeNodes G root treeUsed ws) n < 64 :=
    flagsOf_lt (fun nd h hid => (hall nd h hid).2)
  unfold resolveFlags Dependency.build
  by_cases ht : targeted
  · rw [if_pos ht]
    have hs := strip_preserves_ctx _ hlt h32
    simp only [hs]
    decide
  · rw [if_neg ht]
    simp only [h32]
    decide


theorem build_context_propagation_witness :
    Dependency.build ⟨"b", 1, resolveFlags (finalizeNodes C1WG 0 [] []) false 2⟩ = true :=
  build_context_propagation C1WG 0 [] [] false "b" 1 2 (by decide) (by decide)
    (by decide) (by decide)

/-- C10: every work-stack traversal (`anyFollow`, `normalFollow` and
`targetFollow` alike) terminates on every finite node table, cycles
included: fuel `pot` — pending pops plus the edge lists of the not yet
visited keys — always empties the queue, and any larger fuel computes
the same state. -/
theorem traversal_terminates
    (G : Nodes) (follow : RawNodeDep → Bool) (used queue : List Nat) :
    (traverseF G follow (pot G used queue) used queue).2 = [] ∧
    ∀ m, pot G used queue ≤ m →
      traverseF G follow m used queue =
        traverseF G follow (pot G used queue) used queue :=
  ⟨traverseF_halts G follow _ _ used queue (Nat.le_refl _) (Nat.le_refl _),
   fun m hm =>
     traverseF_fuel_congr G follow _ m _ used queue (Nat.le_refl _) hm (Nat.le_refl _)⟩


theorem traversal_terminates_witness :
    (traverseF C10WG anyFollow (pot C10WG [] [0]) [] [0]).2 = [] ∧
    traverseF C10WG anyFollow 7 [] [0] =
      traverseF C10WG anyFollow (pot C10WG [] [0]) [] [0] :=
  ⟨(traversal_terminates C10WG anyFollow [] [0]).1,
   (traversal_terminates C10WG anyFollow [] [0]).2 7 (by decide)⟩

/-- C3: edge classification is a pure total function of kind and
target: all nine combinations match the documented table (dev or an
unsatisfiable target give zero, everything else the OR of the two
discriminants), absent kind parses as normal, absent or null target as
always-applies, and the literal unsatisfiable expression as never. -/
theorem edge_classification_total :
    (RawNodeDepKind.as_flag ⟨.Normal, .Any⟩ = (FLAG_CTX_NORMAL ||| FLAG_TARGET_ANY)) ∧
    (RawNodeDepKind.as_flag ⟨.Normal, .Cfg⟩ = (FLAG_CTX_NORMAL ||| FLAG_TARGET_CFG)) ∧
    (RawNodeDepKind.as_flag ⟨.Build, .Any⟩ = (FLAG_CTX_BUILD ||| FLAG_TARGET_ANY)) ∧
    (RawNodeDepKind.as_flag ⟨.Build, .Cfg⟩ = (FLAG_CTX_BUILD ||| FLAG_TARGET_CFG)) ∧
    (RawNodeDepKind.as_flag ⟨.Dev, .Any⟩ = 0) ∧
    (RawNodeDepKind.as_flag ⟨.Dev, .Cfg⟩ = 0) ∧
    (RawNodeDepKind.as_flag ⟨.Dev, .None⟩ = 0) ∧
    (RawNodeDepKind.as_flag ⟨.Normal, .None⟩ = 0) ∧
    (RawNodeDepKind.as_flag ⟨.Build, .None⟩ = 0) ∧
    (NodeDepKind.ofRaw none = .Normal) ∧
    (NodeDepKind.ofRaw (some "null") = .Normal) ∧
    (NodeDepKind.ofRaw (some "\"build\"") = .Build) ∧
    (NodeDepKind.ofRaw (some "\"dev\"") = .Dev) ∧
    (NodeDepTarget.ofRaw none = .Any) ∧
    (NodeDepTarget.ofRaw (some "null") = .Any) ∧
    (NodeDepTarget.ofRaw (some "\"cfg(all())\"") = .Any) ∧
    (NodeDepTarget.ofRaw (some "\"cfg(any())\"") = .None) ∧
    (NodeDepTarget.ofRaw (some "\"cfg(unix)\"") = .Cfg) := by
  decide

/-- C6: the loader drops every edge whose flag is missing context bits
or target bits before any traversal: the retained edges all carry both,
the zero-context or zero-target ones never survive, and an edge whose
kind list is all dev or all unsatisfiable folds to the zero flag. -/
theorem edge_drop_invariant :
    (∀ v : List RawNodeDep, ∀ nd ∈ deserialize_deps v,
      nd.dep_kinds &&& MASK_CTX ≠ 0 ∧ nd.dep_kinds &&& MASK_TARGET ≠ 0) ∧
    (∀ v : List RawNodeDep, ∀ nd ∈ v,
      (nd.dep_kinds &&& MASK_CTX = 0 ∨ nd.dep_kinds &&& MASK_TARGET = 0) →
        nd ∉ deserialize_deps v) ∧
    (∀ kinds : List RawNodeDepKind,
      (∀ dk ∈ kinds, dk.kind = NodeDepKind.Dev ∨ dk.target = NodeDepTarget.None) →
      deserialize_dep_kinds kinds = 0) := by
  have hflag : ∀ dk : RawNodeDepKind,
      dk.kind = NodeDepKind.Dev ∨ dk.target = NodeDepTarget.None →
      dk.as_flag = 0 := by
    intro dk h
    unfold RawNodeDepKind.as_flag
    rw [if_pos h]
  have hmem : ∀ v : List RawNodeDep, ∀ nd ∈ deserialize_deps v,
      nd.dep_kinds &&& MASK_CTX ≠ 0 ∧ nd.dep_kinds &&& MASK_TARGET ≠ 0 := by
    intro v nd hnd
    have hf := (List.mem_filter.mp hnd).2
    simp only [Bool.and_eq_true, bne_iff_ne] at hf
    exact ⟨fun h => hf.1 h.symm, fun h => hf.2 h.symm⟩
  refine ⟨hmem, ?_, ?_⟩
  · intro v nd hv hzero hmem'
    rcases hmem v nd hmem' with ⟨h1, h2⟩
    rcases hzero with h | h
    · exact h1 h
    · exact h2 h
  · intro kinds hk
    unfold deserialize_dep_kinds
    induction kinds with
    | nil => rfl
    | cons dk kinds ih =>
      rw [List.foldl_cons, hflag dk (hk dk (List.mem_cons_self _ _))]
      exact ih (fun x hx => hk x (List.mem_cons_of_mem _ hx))

theorem edge_drop_invariant_witness :
    deserialize_dep_kinds [⟨.Dev, .Any⟩, ⟨.Normal, .None⟩] = 0 :=
  edge_drop_invariant.2.2 [⟨.Dev, .Any⟩, ⟨.Normal, .None⟩] (by decide)


/-- C5 counterexample: a payload whose resolve table lacks a root id
fails deserialization instead of seeding the traversal from the
workspace members, and `Raw::finalize`'s fallback traversal never seeds
from workspace members: with root 0 and workspace member 1, neither 1
nor its dependency 2 is marked used. -/
theorem traversal_seeding_counterexample :
    parseRawResolve [] none = Except.error "missing field root" ∧
    (1 ∉ mainUsed C5WG 0 []) ∧ (2 ∉ mainUsed C5WG 0 []) :=
  ⟨rfl, by decide, by decide⟩

/-- C5 (amended): the traversal always seeds with the root id alone —
the root is in every used set, the fallback traversal starts from
`[root]`, and a payload without a root id is a deserialization error
(workspace members are never used as seeds). -/
theorem traversal_seeding_amended (G : Nodes) (root : Nat)
    (treeUsed : List Nat) (nodes : Nodes) :
    root ∈ mainUsed G root treeUsed ∧
    (treeUsed = [] → mainUsed G root treeUsed = traversal G anyFollow [root]) ∧
    parseRawResolve nodes none = Except.error "missing field root" := by
  refine ⟨?_, ?_, rfl⟩
  · unfold mainUsed
    by_cases h : (treeUsed.isEmpty || !(treeUsed.contains root)) = true
    · rw [if_pos h]
      exact traversal_seeds (List.mem_singleton.mpr rfl)
    · rw [if_neg h]
      simp only [Bool.or_eq_true, Bool.not_eq_true', not_or, Bool.not_eq_false] at h
      exact contains_mem.mp h.2
  · intro h
    subst h
    unfold mainUsed
    rw [if_pos (by simp)]

theorem traversal_seeding_amended_witness :
    0 ∈ mainUsed C5WG 0 [] ∧ mainUsed C5WG 0 [] = traversal C5WG anyFollow [0] :=
  ⟨(traversal_seeding_amended C5WG 0 [] []).1,
   (traversal_seeding_amended C5WG 0 [] []).2.1 rfl⟩

/-- C4: the package-name ordering treats `foo-bar` and `foo_bar` as
equal, but the package-name equality does not — the one-sided hyphens
branch of `PartialEq` returns `false` outright, contradicting the
struct's own documentation ("for equality and sorting purposes, `-` and
`_` are treated as equivalent") and the consistency the claim states. -/
theorem packageName_eq_ord_divergence :
    PackageName.ofString "foo-bar" = some ⟨"foo-bar", true⟩ ∧
    PackageName.ofString "foo_bar" = some ⟨"foo_bar", false⟩ ∧
    PackageName.beq ⟨"foo-bar", true⟩ ⟨"foo_bar", false⟩ = false ∧
    PackageName.cmp ⟨"foo-bar", true⟩ ⟨"foo_bar", false⟩ = Ordering.eq := by
  decide


/-- C8: a failed all-features pass is non-fatal and atomic — `fetch`
still returns `Ok` with exactly the default-features dependency set —
while a failed default-features parse is a `ParseCargoMetadata` error. -/
theorem feature_delta_nonfatal
    (e e2 : String) (t1 t2 : List Nat) (targeted : Bool)
    (r2 : Except String Raw) (pl1 : Raw) (mainP : RawPackage)
    (hmain : (fetchDefault pl1 t1 targeted).1 = some mainP)
    (hfeat : mainP.hasFeatures = true) :
    fetch (.error e) t1 r2 t2 targeted = .error (.ParseCargoMetadata e) ∧
    fetch (.ok pl1) t1 (.error e2) t2 targeted =
      .ok (fetchDefault pl1 t1 targeted).2 := by
  constructor
  · rfl
  · unfold fetch
    simp [hmain, hfeat]

theorem feature_delta_nonfatal_witness :
    fetch (.error "boom") [] (.ok C8pl) [] false =
      .error (.ParseCargoMetadata "boom") ∧
    fetch (.ok C8pl) [] (.error "boom") [] false =
      .ok (fetchDefault C8pl [] false).2 :=
  feature_delta_nonfatal "boom" "boom" [] [] false (.ok C8pl) C8pl
    ⟨0, "r", 1, true⟩ (by decide) rfl

/-! ## Provenance of the final dependency set -/

theorem btreeInsert_mem {x d : Dependency} {l : List Dependency}
    (h : x ∈ btreeInsert d l) : x = d ∨ x ∈ l := by
  induction l with
  | nil => simpa [btreeInsert] using h
  | cons a l ih =>
    unfold btreeInsert at h
    split at h
    · rcases List.mem_cons.mp h with h | h
      · exact Or.inl h
      · exact Or.inr h
    · exact Or.inr h
    · rcases List.mem_cons.mp h with h | h
      · exact Or.inr (h ▸ List.mem_cons_self _ _)
      · rcases ih h with h | h
        · exact Or.inl h
        · exact Or.inr (List.mem_cons_of_mem _ h)

theorem btreeInsert_mem_mono {x d : Dependency} {l : List Dependency}
    (h : x ∈ l) : x ∈ btreeInsert d l := by
  induction l with
  | nil => cases h
  | cons a l ih =>
    unfold btreeInsert
    split
    · exact List.mem_cons_of_mem _ h
    · exact h
    · rcases List.mem_cons.mp h with h | h
      · exact h ▸ List.mem_cons_self _ _
      · exact List.mem_cons_of_mem _ (ih h)

/-- The `fetch` per-package fold step (default-features pass). -/
theorem fetchPass_mem {G : Nodes} {root : Nat} {targeted : Bool} :
    ∀ (packages : List RawPackage) (acc : Option RawPackage × List Dependency)
      (d : Dependency),
      d ∈ (packages.foldl
        (fun acc p =>
          if p.id == root then (some p, acc.2)
          else if containsKey G p.id then
            (acc.1,
              btreeInsert (try_into_dependency p (resolveFlags G targeted p.id)) acc.2)
          else acc) acc).2 →
      d ∈ acc.2 ∨ ∃ p ∈ packages, p.id ≠ root ∧ containsKey G p.id = true ∧
        d = try_into_dependency p (resolveFlags G targeted p.id) := by
  intro packages
  induction packages with
  | nil => intro acc d h; exact Or.inl h
  | cons p ps ih =>
    intro acc d h
    rw [List.foldl_cons] at h
    rcases ih _ d h with h' | ⟨q, hq, hqr, hqc, hqd⟩
    · by_cases hr : p.id == root
      · rw [if_pos hr] at h'
        exact Or.inl h'
      · rw [if_neg hr] at h'
        by_cases hc : containsKey G p.id
        · rw [if_pos hc] at h'
          rcases btreeInsert_mem h' with h'' | h''
          · exact Or.inr ⟨p, List.mem_cons_self _ _, by simpa using hr, hc, h''⟩
          · exact Or.inl h''
        · rw [if_neg hc] at h'
          exact Or.inl h'
    · exact Or.inr ⟨q, List.mem_cons_of_mem _ hq, hqr, hqc, hqd⟩

/-- The main package recorded by the fold always has the root id. -/
theorem fetchPass_main {G : Nodes} {root : Nat} {targeted : Bool}
    {mainP : RawPackage} :
    ∀ (packages : List RawPackage) (acc : Option RawPackage × List Dependency),
      (acc.1 = none ∨ ∃ q, acc.1 = some q ∧ q.id = root) →
      (packages.foldl
        (fun acc p =>
          if p.id == root then (some p, acc.2)
          else if containsKey G p.id then
            (acc.1,
              btreeInsert (try_into_dependency p (resolveFlags G targeted p.id)) acc.2)
          else acc) acc).1 = some mainP →
      mainP.id = root := by
  intro packages
  induction packages with
  | nil =>
    intro acc hacc h
    rw [List.foldl_nil] at h
    rcases hacc with h' | ⟨q, hq, hqr⟩
    · rw [h'] at h; cases h
    · rw [hq] at h
      cases h
      exact hqr
  | cons p ps ih =>
    intro acc hacc h
    rw [List.foldl_cons] at h
    refine ih _ ?_ h
    by_cases hr : p.id == root
    · rw [if_pos hr]
      exact Or.inr ⟨p, rfl, by simpa using hr⟩
    · rw [if_neg hr]
      by_cases hc : containsKey G p.id
      · rw [if_pos hc]
        exact hacc
      · rw [if_neg hc]
        exact hacc

/-- The `fetch` per-package fold step (all-features pass). -/
theorem fetchPass2_mem {G2 : Nodes} {mainId : Nat} {targeted : Bool} :
    ∀ (packages : List RawPackage) (acc : List Dependency) (d : Dependency),
      d ∈ packages.foldl
        (fun deps p =>
          if (p.id != mainId) && containsKey G2 p.id then
            btreeInsert
              (try_into_dependency p (resolveFlags G2 targeted p.id ||| FLAG_OPTIONAL))
              deps
          else deps) acc →
      d ∈ acc ∨ ∃ p ∈ packages, p.id ≠ mainId ∧ containsKey G2 p.id = true ∧
        d = try_into_dependency p (resolveFlags G2 targeted p.id ||| FLAG_OPTIONAL) := by
  intro packages
  induction packages with
  | nil => intro acc d h; exact Or.inl h
  | cons p ps ih =>
    intro acc d h
    rw [List.foldl_cons] at h
    rcases ih _ d h with h' | ⟨q, hq, hqr, hqc, hqd⟩
    · by_cases hc : ((p.id != mainId) && containsKey G2 p.id) = true
      · rw [if_pos hc] at h'
        rcases btreeInsert_mem h' with h'' | h''
        · rcases Bool.and_eq_true_iff.mp hc with ⟨hc1, hc2⟩
          exact Or.inr ⟨p, List.mem_cons_self _ _, by simpa using hc1, hc2, h''⟩
        · exact Or.inl h''
      · rw [if_neg hc] at h'
        exact Or.inl h'
    · exact Or.inr ⟨q, List.mem_cons_of_mem _ hq, hqr, hqc, hqd⟩

/-- Where each element of a successful `fetch` result comes from: a
non-root package of the default payload with its resolved flags, or a
non-root package of the all-features payload with its resolved flags
plus the `OPTIONAL` bit. -/
theorem fetch_provenance
    (pl1 : Raw) (t1 t2 : List Nat) (r2 : Except String Raw) (targeted : Bool)
    (deps : List Dependency)
    (hok : fetch (.ok pl1) t1 r2 t2 targeted = .ok deps) :
    ∀ d ∈ deps, ∃ p,
      p.id ≠ pl1.root ∧
      ((p ∈ pl1.packages ∧ containsKey (fetchG pl1 t1) p.id = true ∧
          d = try_into_dependency p (resolveFlags (fetchG pl1 t1) targeted p.id)) ∨
       (∃ pl2, r2 = .ok pl2 ∧ p ∈ pl2.packages ∧
          containsKey (fetchG pl2 t2) p.id = true ∧
          d = try_into_dependency p
            (resolveFlags (fetchG pl2 t2) targeted p.id ||| FLAG_OPTIONAL))) := by
  intro d hd
  unfold fetch at hok
  split at hok
  · rename_i e hpl
    cases hpl
  · rename_i pl1' hpl
    injection hpl with hpl'
    subst hpl'
    split at hok
    · cases hok
    rename_i mainP hm
    have hmain : mainP.id = pl1.root :=
      fetchPass_main pl1.packages (none, []) (Or.inl rfl) hm
    have hpass1 : ∀ d' ∈ (fetchDefault pl1 t1 targeted).2, ∃ p,
        p.id ≠ pl1.root ∧
        (p ∈ pl1.packages ∧ containsKey (fetchG pl1 t1) p.id = true ∧
          d' = try_into_dependency p (resolveFlags (fetchG pl1 t1) targeted p.id)) := by
      intro d' hd'
      rcases fetchPass_mem pl1.packages (none, []) d' hd' with h | ⟨p, hp, hpr, hpc, hpd⟩
      · cases h
      · exact ⟨p, hpr, hp, hpc, hpd⟩
    by_cases hf : mainP.hasFeatures = true
    · rw [if_pos hf] at hok
      cases r2 with
      | error e =>
        have hde : deps = (fetchDefault pl1 t1 targeted).2 :=
          (Except.ok.inj hok).symm
        rcases hpass1 d (hde ▸ hd) with ⟨p, hpr, hprov⟩
        exact ⟨p, hpr, Or.inl hprov⟩
      | ok pl2 =>
        have hde := (Except.ok.inj hok).symm
        rcases fetchPass2_mem pl2.packages (fetchDefault pl1 t1 targeted).2 d
            (hde ▸ hd) with h | ⟨p, hp, hpr, hpc, hpd⟩
        · rcases hpass1 d h with ⟨p, hpr, hprov⟩
          exact ⟨p, hpr, Or.inl hprov⟩
        · exact ⟨p, fun hh => hpr (hh.trans hmain.symm), Or.inr ⟨pl2, rfl, hp, hpc, hpd⟩⟩
    · rw [if_neg hf] at hok
      have hde : deps = (fetchDefault pl1 t1 targeted).2 :=
        (Except.ok.inj hok).symm
      rcases hpass1 d (hde ▸ hd) with ⟨p, hpr, hprov⟩
      exact ⟨p, hpr, Or.inl hprov⟩

/-- C7: the package whose id equals the resolved root id never
contributes to the final dependency set — every output element comes
from a package whose id differs from the root, in the default pass and
the all-features pass alike. -/
theorem root_exclusion
    (pl1 : Raw) (t1 t2 : List Nat) (r2 : Except String Raw) (targeted : Bool)
    (deps : List Dependency)
    (hok : fetch (.ok pl1) t1 r2 t2 targeted = .ok deps) :
    ∀ d ∈ deps, ∃ p, p.id ≠ pl1.root ∧ d.name = p.name ∧ d.version = p.version ∧
      (p ∈ pl1.packages ∨ ∃ pl2, r2 = .ok pl2 ∧ p ∈ pl2.packages) := by
  intro d hd
  rcases fetch_provenance pl1 t1 t2 r2 targeted deps hok d hd with ⟨p, hpr, hprov⟩
  rcases hprov with ⟨hp, _, hpd⟩ | ⟨pl2, hr2, hp, _, hpd⟩
  · exact ⟨p, hpr, by rw [hpd]; rfl, by rw [hpd]; rfl, Or.inl hp⟩
  · exact ⟨p, hpr, by rw [hpd]; rfl, by rw [hpd]; rfl, Or.inr ⟨pl2, hr2, hp⟩⟩

theorem root_exclusion_witness :
    ∃ p, p.id ≠ C2pl1.root ∧
      (Dependency.mk "a" 1 20).name = p.name ∧
      (Dependency.mk "a" 1 20).version = p.version ∧
      (p ∈ C2pl1.packages ∨
        ∃ pl2, (Except.error "x" : Except String Raw) = .ok pl2 ∧ p ∈ pl2.packages) :=
  root_exclusion C2pl1 [] [] (.error "x") false [⟨"a", 1, 20⟩] (by decide)
    ⟨"a", 1, 20⟩ (by decide)

/-! ## Targeted resolution strips the conditional-target bit (C9) -/

theorem forceBuild_lt {nd : RawNodeDep} (h : nd.dep_kinds < 64) :
    (forceBuild nd).dep_kinds < 64 := (forceBuild_bits _ h).2

theorem forceCfg_lt {nd : RawNodeDep} (h : nd.dep_kinds < 64) :
    (forceCfg nd).dep_kinds < 64 := (forceCfg_bits _ h).2

theorem markDirect_lt {nd : RawNodeDep} (h : nd.dep_kinds < 64) :
    (markDirect nd).dep_kinds < 64 := (markDirect_bits _ h).2

theorem mem_edges_of_mem {G : Nodes} {kv : Nat × List RawNodeDep}
    {nd : RawNodeDep} (hkv : kv ∈ G) (hnd : nd ∈ kv.2) :
    nd ∈ (G.map Prod.snd).flatten :=
  List.mem_flatten.mpr ⟨kv.2, List.mem_map_of_mem Prod.snd hkv, hnd⟩

/-- Bounded edges stay bounded through the whole `finalize` pipeline. -/
theorem edges_finalize_lt {G : Nodes} {root : Nat} {tree ws : List Nat}
    (h : ∀ nd ∈ (G.map Prod.snd).flatten, nd.dep_kinds < 64) :
    ∀ nd3 ∈ (((finalizeNodes G root tree ws).map Prod.snd).flatten),
      nd3.dep_kinds < 64 := by
  intro nd3 h3
  rcases edges_finalize.mp h3 with ⟨kv, hkv, nd0, hnd0, rfl⟩
  rcases mem_retained hkv with ⟨kv0, hkv0, _, hsub⟩
  have hlt0 : nd0.dep_kinds < 64 := h nd0 (mem_edges_of_mem hkv0 (hsub nd0 hnd0))
  split_ifs <;>
    first
      | exact hlt0
      | exact forceBuild_lt hlt0
      | exact forceCfg_lt hlt0
      | exact forceCfg_lt (forceBuild_lt hlt0)
      | exact markDirect_lt hlt0
      | exact markDirect_lt (forceBuild_lt hlt0)
      | exact markDirect_lt (forceCfg_lt hlt0)
      | exact markDirect_lt (forceCfg_lt (forceBuild_lt hlt0))

/-- C9: with a target platform filter the `TARGET_CFG` bit is stripped
from every merged flag before assembly, so every output `Dependency`
reports `target_specific() = false`; without a filter the flags map is
returned unchanged. -/
theorem targeted_strips_target_cfg
    (pl1 : Raw) (t1 t2 : List Nat) (r2 : Except String Raw)
    (deps : List Dependency)
    (hb1 : ∀ nd ∈ (pl1.nodes.map Prod.snd).flatten, nd.dep_kinds < 64)
    (hb2 : ∀ pl2, r2 = .ok pl2 →
      ∀ nd ∈ (pl2.nodes.map Prod.snd).flatten, nd.dep_kinds < 64)
    (hok : fetch (.ok pl1) t1 r2 t2 true = .ok deps) :
    (∀ d ∈ deps, d.target_specific = false) ∧
    (∀ (G : Nodes) (id : Nat), resolveFlags G false id = flagsOf G id) := by
  constructor
  · intro d hd
    rcases fetch_provenance pl1 t1 t2 r2 true deps hok d hd with ⟨p, _, hprov⟩
    rcases hprov with ⟨_, _, hpd⟩ | ⟨pl2, hr2, _, _, hpd⟩
    · have hflt : flagsOf (fetchG pl1 t1) p.id < 64 :=
        flagsOf_lt (fun nd hnd _ => edges_finalize_lt hb1 nd hnd)
      rw [hpd]
      have hs := (strip_kills_target_cfg _ hflt).1
      simpa [Dependency.target_specific, try_into_dependency, resolveFlags] using hs
    · have hflt : flagsOf (fetchG pl2 t2) p.id < 64 :=
        flagsOf_lt (fun nd hnd _ => edges_finalize_lt (hb2 pl2 hr2) nd hnd)
      rw [hpd]
      have hs := (strip_kills_target_cfg _ hflt).2
      simpa [Dependency.target_specific, try_into_dependency, resolveFlags] using hs
  · intro G id
    rfl

theorem targeted_strips_target_cfg_witness :
    Dependency.target_specific ⟨"a", 1, 20⟩ = false ∧
    resolveFlags C1WG false 2 = flagsOf C1WG 2 :=
  have h := targeted_strips_target_cfg C2pl1 [] [] (.error "x") [⟨"a", 1, 20⟩]
    (by decide) (by intro pl2 hc; cases hc) (by decide)
  ⟨h.1 ⟨"a", 1, 20⟩ (by decide), h.2 C1WG 2⟩

/-! ## The feature-delta union (C2) -/

theorem lexCmp_self : ∀ l : List Char, lexCmp l l = .eq := by
  intro l
  induction l with
  | nil => rfl
  | cons a l ih =>
    unfold lexCmp
    rw [if_neg (lt_irrefl a), if_neg (lt_irrefl a)]
    exact ih

theorem lexCmp_eq_iff : ∀ {xs ys : List Char}, lexCmp xs ys = .eq ↔ xs = ys := by
  intro xs
  induction xs with
  | nil =>
    intro ys
    cases ys with
    | nil => simp [lexCmp]
    | cons b bs =>
      constructor
      · intro h; exact Ordering.noConfusion h
      · intro h; exact List.noConfusion h
  | cons a as ih =>
    intro ys
    cases ys with
    | nil =>
      constructor
      · intro h; exact Ordering.noConfusion h
      · intro h; exact List.noConfusion h
    | cons b bs =>
      unfold lexCmp
      by_cases h1 : a < b
      · rw [if_pos h1]
        constructor
        · intro h; exact Ordering.noConfusion h
        · intro h
          cases h
          exact absurd h1 (lt_irrefl a)
      · rw [if_neg h1]
        by_cases h2 : b < a
        · rw [if_pos h2]
          constructor
          · intro h; exact Ordering.noConfusion h
          · intro h
            cases h
            exact absurd h2 (lt_irrefl a)
        · rw [if_neg h2]
          have hab : a = b := le_antisymm (not_lt.mp h2) (not_lt.mp h1)
          subst hab
          constructor
          · intro h
            rw [ih.mp h]
          · intro h
            cases h
            exact ih.mpr rfl

theorem natCmp_eq_iff {a b : Nat} : natCmp a b = .eq ↔ a = b := by
  unfold natCmp
  split_ifs with h1 h2
  · constructor
    · intro h; exact h.elim
    · intro h; omega
  · constructor
    · intro h; exact h.elim
    · intro h; omega
  · constructor
    · intro _; omega
    · intro _; rfl

theorem depCmp_eq_iff {a b : Dependency} :
    Dependency.cmp a b = .eq ↔ a.name = b.name ∧ a.version = b.version := by
  unfold Dependency.cmp
  constructor
  · intro h
    cases hl : lexCmp a.name.data b.name.data with
    | lt => rw [hl] at h; exact Ordering.noConfusion h
    | gt => rw [hl] at h; exact Ordering.noConfusion h
    | eq =>
      rw [hl] at h
      exact ⟨String.ext (lexCmp_eq_iff.mp hl), natCmp_eq_iff.mp h⟩
  · rintro ⟨h1, h2⟩
    rw [h1, h2, lexCmp_eq_iff.mpr rfl]
    exact natCmp_eq_iff.mpr rfl

/-- Insertion always leaves an element comparing equal to the inserted
one in the set: the new element itself, or the already-present one. -/
theorem btreeInsert_key (d : Dependency) :
    ∀ l : List Dependency,
      ∃ y ∈ btreeInsert d l, Dependency.cmp d y = .eq ∧ (y = d ∨ y ∈ l) := by
  intro l
  induction l with
  | nil =>
    refine ⟨d, List.mem_singleton.mpr rfl, ?_, Or.inl rfl⟩
    exact depCmp_eq_iff.mpr ⟨rfl, rfl⟩
  | cons a l ih =>
    unfold btreeInsert
    split
    · exact ⟨d, List.mem_cons_self _ _, depCmp_eq_iff.mpr ⟨rfl, rfl⟩, Or.inl rfl⟩
    · rename_i heq
      exact ⟨a, List.mem_cons_self _ _, heq, Or.inr (List.mem_cons_self _ _)⟩
    · rcases ih with ⟨y, hy, hcmp, hor⟩
      refine ⟨y, List.mem_cons_of_mem _ hy, hcmp, ?_⟩
      rcases hor with h | h
      · exact Or.inl h
      · exact Or.inr (List.mem_cons_of_mem _ h)

/-- The `OPTIONAL` bit survives the OR unconditionally. -/
theorem lor_optional (c : Nat) :
    (FLAG_OPTIONAL == (c ||| FLAG_OPTIONAL) &&& FLAG_OPTIONAL) = true := by
  have h : (c ||| 2) &&& 2 = 2 := by
    apply Nat.eq_of_testBit_eq
    intro i
    rw [Nat.testBit_land, Nat.testBit_lor]
    cases hb : Nat.testBit 2 i
    · simp [hb]
    · simp [hb]
  have h2 : FLAG_OPTIONAL = 2 := rfl
  rw [h2, h]
  rfl

/-- Every element of the all-features fold is a default-pass element or
carries the `OPTIONAL` bit. -/
theorem pass2_inv {G2 : Nodes} {mainId : Nat} {targeted : Bool}
    {base : List Dependency} :
    ∀ (packages : List RawPackage) (acc : List Dependency),
      (∀ x ∈ acc, x ∈ base ∨ x.optional = true) →
      ∀ x ∈ packages.foldl
        (fun deps p =>
          if (p.id != mainId) && containsKey G2 p.id then
            btreeInsert
              (try_into_dependency p (resolveFlags G2 targeted p.id ||| FLAG_OPTIONAL))
              deps
          else deps) acc,
        x ∈ base ∨ x.optional = true := by
  intro packages acc hacc x hx
  rcases fetchPass2_mem packages acc x hx with h | ⟨p, _, _, _, hpd⟩
  · exact hacc x h
  · right
    rw [hpd]
    exact lor_optional _

/-- Elements survive the all-features fold. -/
theorem pass2_mono {G2 : Nodes} {mainId : Nat} {targeted : Bool} :
    ∀ (packages : List RawPackage) (acc : List Dependency) (d : Dependency),
      d ∈ acc →
      d ∈ packages.foldl
        (fun deps p =>
          if (p.id != mainId) && containsKey G2 p.id then
            btreeInsert
              (try_into_dependency p (resolveFlags G2 targeted p.id ||| FLAG_OPTIONAL))
              deps
          else deps) acc := by
  intro packages
  induction packages with
  | nil => intro acc d h; exact h
  | cons q ps ih =>
    intro acc d h
    rw [List.foldl_cons]
    apply ih
    by_cases hc : ((q.id != mainId) && containsKey G2 q.id) = true
    · rw [if_pos hc]
      exact btreeInsert_mem_mono h
    · rw [if_neg hc]
      exact h

/-- A qualifying package whose name/version key is absent from the
default result always leaves an `OPTIONAL` entry with its key in the
all-features fold. -/
theorem pass2_exists {G2 : Nodes} {mainId : Nat} {targeted : Bool}
    {base : List Dependency} (p : RawPackage)
    (hpid : p.id ≠ mainId) (hpc : containsKey G2 p.id = true)
    (hbase : ∀ d ∈ base, ¬(d.name = p.name ∧ d.version = p.version)) :
    ∀ (packages : List RawPackage) (acc : List Dependency),
      p ∈ packages →
      (∀ x ∈ acc, x ∈ base ∨ x.optional = true) →
      ∃ d ∈ packages.foldl
        (fun deps q =>
          if (q.id != mainId) && containsKey G2 q.id then
            btreeInsert
              (try_into_dependency q (resolveFlags G2 targeted q.id ||| FLAG_OPTIONAL))
              deps
          else deps) acc,
        d.name = p.name ∧ d.version = p.version ∧ d.optional = true := by
  intro packages
  induction packages with
  | nil => intro acc h; cases h
  | cons q ps ih =>
    intro acc hmem hacc
    rw [List.foldl_cons]
    have hstep : ∀ x ∈ (if (q.id != mainId) && containsKey G2 q.id then
        btreeInsert
          (try_into_dependency q (resolveFlags G2 targeted q.id ||| FLAG_OPTIONAL))
          acc
      else acc), x ∈ base ∨ x.optional = true := by
      intro x hx
      by_cases hc : ((q.id != mainId) && containsKey G2 q.id) = true
      · rw [if_pos hc] at hx
        rcases btreeInsert_mem hx with h | h
        · right
          rw [h]
          exact lor_optional _
        · exact hacc x h
      · rw [if_neg hc] at hx
        exact hacc x hx
    rcases List.mem_cons.mp hmem with hq | hq
    · subst hq
      have hcond : ((p.id != mainId) && containsKey G2 p.id) = true := by
        rw [hpc, bne_iff_ne.mpr hpid]
        rfl
      rw [if_pos hcond]
      rcases btreeInsert_key
          (try_into_dependency p (resolveFlags G2 targeted p.id ||| FLAG_OPTIONAL))
          acc with ⟨y, hy, hcmp, hor⟩
      rcases depCmp_eq_iff.mp hcmp with ⟨hn, hv⟩
      have hyname : y.name = p.name := hn.symm
      have hyver : y.version = p.version := hv.symm
      have hyopt : y.optional = true := by
        rcases hor with h | h
        · rw [h]
          exact lor_optional _
        · rcases hacc y h with h' | h'
          · exact absurd ⟨hyname, hyver⟩ (hbase y h')
          · exact h'
      exact ⟨y, pass2_mono ps _ y hy, hyname, hyver, hyopt⟩
    · exact ih _ hq hstep

/-- C2 (amended): when the root has optional features and the
all-features pass succeeds, every default-pass entry survives
unchanged, and every qualifying all-features package whose name/version
key is absent from the default result appears in the output with the
`OPTIONAL` bit; a package whose key is already present keeps the
default pass's classification (the all-features flags are discarded by
the set insert). -/
theorem feature_delta_union_amended
    (pl1 pl2 : Raw) (t1 t2 : List Nat) (targeted : Bool)
    (mainP : RawPackage) (out : List Dependency)
    (hmain : (fetchDefault pl1 t1 targeted).1 = some mainP)
    (hfeat : mainP.hasFeatures = true)
    (hok : fetch (.ok pl1) t1 (.ok pl2) t2 targeted = .ok out) :
    (∀ d ∈ (fetchDefault pl1 t1 targeted).2, d ∈ out) ∧
    (∀ p ∈ pl2.packages, p.id ≠ mainP.id →
      containsKey (fetchG pl2 t2) p.id = true →
      (∀ d ∈ (fetchDefault pl1 t1 targeted).2,
        ¬(d.name = p.name ∧ d.version = p.version)) →
      ∃ d ∈ out, d.name = p.name ∧ d.version = p.version ∧ d.optional = true) := by
  have hout : pl2.packages.foldl
      (fun deps p =>
        if (p.id != mainP.id) && containsKey (fetchG pl2 t2) p.id then
          btreeInsert
            (try_into_dependency p
              (resolveFlags (fetchG pl2 t2) targeted p.id ||| FLAG_OPTIONAL))
            deps
        else deps) (fetchDefault pl1 t1 targeted).2 = out := by
    unfold fetch at hok
    simp only [hmain, hfeat, if_true] at hok
    exact Except.ok.inj hok
  constructor
  · intro d hd
    rw [← hout]
    exact pass2_mono pl2.packages _ d hd
  · intro p hp hpid hpc hbase
    rw [← hout]
    exact pass2_exists p hpid hpc hbase pl2.packages _ hp (fun x hx => Or.inl hx)

/-- C2 counterexample: package "a" is present in the all-features
result with different merged flags (36, build-only, versus 20, normal),
yet the final output keeps the default-pass record without the
`OPTIONAL` bit — the set insert discards the all-features entry because
equality is name+version only. -/
theorem feature_delta_union_counterexample :
    fetch (.ok C2pl1) [] (.ok C2pl2) [] false = .ok [⟨"a", 1, 20⟩] ∧
    Dependency.optional ⟨"a", 1, 20⟩ = false ∧
    resolveFlags (fetchG C2pl2 []) false 1 = 36 ∧
    resolveFlags (fetchG C2pl1 []) false 1 = 20 := by
  decide


theorem feature_delta_union_amended_witness :
    ∃ d ∈ [Dependency.mk "a" 1 20, Dependency.mk "b" 1 22],
      d.name = "b" ∧ d.version = 1 ∧ d.optional = true :=
  (feature_delta_union_amended C2pl1 C2Wpl2 [] [] false ⟨0, "r", 1, true⟩
    [⟨"a", 1, 20⟩, ⟨"b", 1, 22⟩] (by decide) rfl (by decide)).2
    ⟨3, "b", 1, false⟩ (by decide) (by decide) (by decide) (by decide)

end Bashman
